import Mathlib

/-!
# Verification of the chunking-and-summarization pipeline of `src/app.py`

Shallow embedding of the core functions `chunk_text` and `summarize_text`
of `app.py`.  Python strings are modelled as Lean `String`; Python's
builtin `str.split()` (split on whitespace runs, discarding empty pieces)
and `str.strip()` are modelled by `pyWords` / `pyStrip` over the
character list, and `" ".join(...)` by `pyJoin " "`.

The external summarization capability (`summarizer(chunk, max_length=150,
min_length=40, do_sample=False)`) is modelled as a function from the chunk
string and the generation parameters to a `CapResult`: it either raises an
exception carrying a detail string, returns a list whose elements'
`summary_text` fields are the listed strings, or returns a non-list value
(covering `None` and any other non-list result, which the guard
`if summary_output and isinstance(summary_output, list)` skips either way).

`summarize_trace` returns, next to the final summary string, the list of
calls made to the capability (chunk argument and generation parameters),
so that claims about how often and with which arguments the external
capability is invoked can be stated.
-/

set_option autoImplicit false

universe u

/-- Python's whitespace test for the ASCII whitespace characters that
`str.split()` / `str.strip()` treat as separators. -/
def pyIsSpace (c : Char) : Bool :=
  c == ' ' || c == '\t' || c == '\n' || c == '\r' || c == '\x0b' || c == '\x0c'

/-- Worker for `pyWords`: scan the character list, accumulating the current
word (in reverse) in `acc`; whitespace flushes the accumulated word.
This is Python's `str.split()` with no arguments: runs of whitespace
separate words and no empty words are produced. -/
def splitWordsAux : List Char → List Char → List (List Char)
  | [], acc => if acc = [] then [] else [acc.reverse]
  | c :: cs, acc =>
    if pyIsSpace c then
      if acc = [] then splitWordsAux cs [] else acc.reverse :: splitWordsAux cs []
    else
      splitWordsAux cs (c :: acc)

/-- `text.split()` of Python: the list of whitespace-separated words. -/
def pyWords (s : String) : List String :=
  (splitWordsAux s.data []).map List.asString

/-- `text.strip()` of Python: remove leading and trailing whitespace. -/
def pyStrip (s : String) : String :=
  ⟨((s.data.dropWhile pyIsSpace).reverse.dropWhile pyIsSpace).reverse⟩

/-- `sep.join(ws)` of Python. -/
def pyJoin (sep : String) : List String → String
  | [] => ""
  | [w] => w
  | w :: ws => w ++ sep ++ pyJoin sep ws

/-- Worker for `chunksOf`, structurally recursive on a fuel argument so
that it evaluates by kernel reduction; with fuel at least `l.length` and a
positive `M` the fuel never runs out (each step consumes at least one list
element), see `chunksOfAux_fuel`. -/
def chunksOfAux {α : Type u} (M : Nat) : Nat → List α → List (List α)
  | _, [] => []
  | 0, _ :: _ => []
  | fuel + 1, x :: xs => (x :: xs).take M :: chunksOfAux M fuel ((x :: xs).drop M)

/-- The word-list partition performed by the loop
`for i in range(0, len(words), max_words): words[i:i+max_words]` of
`chunk_text`, for a positive step `M`: consecutive groups of `M` elements,
the last group holding the remainder.  (The `M = 0` guard is never reached
from `chunk_text`, which models Python's `range` raising on step 0.) -/
def chunksOf {α : Type u} (M : Nat) (l : List α) : List (List α) :=
  if M = 0 then [] else chunksOfAux M l.length l

/-- `chunk_text(text, max_words)` of `app.py` for a positive `max_words`:
split `text` into words, group the words into runs of `max_words`, and
rejoin each group with single spaces. -/
def chunk_textCore (text : String) (max_words : Nat) : List String :=
  (chunksOf max_words (pyWords text)).map (pyJoin " ")

/-- `chunk_text(text, max_words)` of `app.py`, with Python's `range`
semantics for the step argument: step `0` raises `ValueError`, a negative
step makes `range(0, len(words), step)` empty so no chunk is produced. -/
def chunk_text (text : String) (max_words : Int) : Except String (List String) :=
  if max_words = 0 then Except.error "range() arg 3 must not be zero"
  else if max_words < 0 then Except.ok []
  else Except.ok (chunk_textCore text max_words.toNat)

/-- The generation parameters passed to the external capability. -/
structure GenParams where
  max_length : Nat
  min_length : Nat
  do_sample : Bool
deriving DecidableEq

/-- The fixed parameters of the call
`summarizer(chunk, max_length=150, min_length=40, do_sample=False)`. -/
def genParams : GenParams := ⟨150, 40, false⟩

/-- Possible outcomes of one invocation of the external summarization
capability: it raises an exception with a detail string, returns a list
(whose elements' `summary_text` fields are the listed strings), or
returns some non-list value (covering `None` and any other non-list
result; falsy or not, the guard in `summarize_text` skips it). -/
inductive CapResult where
  | raises (detail : String)
  | returnsList (items : List String)
  | returnsNonList
deriving DecidableEq

/-- The external summarization capability, as seen by `summarize_text`:
a function of the chunk string and the generation parameters. -/
def Capability : Type := String → GenParams → CapResult

/-- The body of one iteration of the summarization loop of
`summarize_text`: the list of strings appended to `summaries` for one
chunk.  A raised exception appends the error sentinel; a non-empty list
result appends its first element's `summary_text`; an empty list or a
non-list result appends nothing. -/
def processChunk (cap : Capability) (chunk : String) : List String :=
  match cap chunk genParams with
  | CapResult.raises e => ["Error during summarization: " ++ e]
  | CapResult.returnsList [] => []
  | CapResult.returnsList (s :: _) => [s]
  | CapResult.returnsNonList => []

/-- The summarization loop of `summarize_text`: the final contents of the
`summaries` list after iterating over `chunks`. -/
def runChunks (cap : Capability) : List String → List String
  | [] => []
  | c :: cs => processChunk cap c ++ runChunks cap cs

/-- The chunk list computed by `summarize_text` for a non-blank `text`:
`chunk_text(text, max_words=500)` when the text has more than 500 words,
else the single chunk `[text]`.  (`chunk_text text 500` is
`Except.ok (chunk_textCore text 500)`.) -/
def sumChunks (text : String) : List String :=
  if (pyWords text).length > 500 then chunk_textCore text 500 else [text]

/-- `summarize_text(text)` of `app.py`, instrumented with the list of
calls made to the external capability (chunk argument and generation
parameters); the first component is the returned string. -/
def summarize_trace (cap : Capability) (text : String) :
    String × List (String × GenParams) :=
  if pyStrip text = "" then ("No content to summarize.", [])
  else
    (pyJoin " " (runChunks cap (sumChunks text)),
     (sumChunks text).map (fun c => (c, genParams)))

/-- `summarize_text(text)` of `app.py`: the string returned to the caller. -/
def summarize_text (cap : Capability) (text : String) : String :=
  (summarize_trace cap text).1

/-- The segment contributed to the final summary by a chunk on which the
capability does not silently fail: the error sentinel on a raise,
otherwise the first `summary_text` of the returned list. -/
def capSegment (cap : Capability) (chunk : String) : String :=
  match cap chunk genParams with
  | CapResult.raises e => "Error during summarization: " ++ e
  | CapResult.returnsList (s :: _) => s
  | _ => ""

/-! ## Lemmas about `chunksOf` -/

/-- `chunksOfAux` ignores the exact fuel value as long as it bounds the
list length (each recursive step consumes one fuel unit and at least one
list element when `M ≠ 0`). -/
theorem chunksOfAux_fuel {α : Type u} (M : Nat) (hM : M ≠ 0) :
    ∀ (f₁ f₂ : Nat) (l : List α), l.length ≤ f₁ → l.length ≤ f₂ →
      chunksOfAux M f₁ l = chunksOfAux M f₂ l := by
  intro f₁
  induction f₁ with
  | zero =>
    intro f₂ l h₁ _
    have : l = [] := List.eq_nil_of_length_eq_zero (Nat.le_zero.mp h₁)
    subst this
    cases f₂ <;> rfl
  | succ f ih =>
    intro f₂ l h₁ h₂
    cases l with
    | nil => cases f₂ <;> rfl
    | cons x xs =>
      cases f₂ with
      | zero => simp at h₂
      | succ g =>
        show ((x :: xs).take M :: chunksOfAux M f ((x :: xs).drop M))
            = ((x :: xs).take M :: chunksOfAux M g ((x :: xs).drop M))
        have hlen : ((x :: xs).drop M).length ≤ f := by
          simp only [List.length_drop, List.length_cons]
          simp only [List.length_cons] at h₁
          omega
        have hlen2 : ((x :: xs).drop M).length ≤ g := by
          simp only [List.length_drop, List.length_cons]
          simp only [List.length_cons] at h₂
          omega
        rw [ih g ((x :: xs).drop M) hlen hlen2]

theorem chunksOf_nil {α : Type u} (M : Nat) : chunksOf M ([] : List α) = [] := by
  by_cases h : M = 0 <;> simp [chunksOf, h, chunksOfAux]

/-- Unfolding equation for `chunksOf` on a non-empty list with positive
group size. -/
theorem chunksOf_cons {α : Type u} (M : Nat) (hM : M ≠ 0) (l : List α) (hl : l ≠ []) :
    chunksOf M l = l.take M :: chunksOf M (l.drop M) := by
  cases l with
  | nil => exact absurd rfl hl
  | cons x xs =>
    show chunksOf M (x :: xs) = _
    unfold chunksOf
    rw [if_neg hM, if_neg hM]
    show ((x :: xs).take M :: chunksOfAux M xs.length ((x :: xs).drop M)) = _
    have h1 : ((x :: xs).drop M).length ≤ xs.length := by
      simp only [List.length_drop, List.length_cons]
      omega
    rw [chunksOfAux_fuel M hM xs.length ((x :: xs).drop M).length _ h1 (Nat.le_refl _)]

theorem chunksOf_eq_nil_iff {α : Type u} (M : Nat) (hM : M ≠ 0) (l : List α) :
    chunksOf M l = [] ↔ l = [] := by
  constructor
  · intro h
    by_contra hl
    rw [chunksOf_cons M hM l hl] at h
    exact List.cons_ne_nil _ _ h
  · intro h
    subst h
    exact chunksOf_nil M

/-- The groups produced by `chunksOf`, concatenated in order, are exactly
the original list: no element is lost, duplicated or reordered. -/
theorem chunksOf_flatten {α : Type u} (M : Nat) (hM : M ≠ 0) (l : List α) :
    (chunksOf M l).flatten = l := by
  cases hl : l with
  | nil => simp [chunksOf_nil]
  | cons x xs =>
    rw [chunksOf_cons M hM _ (List.cons_ne_nil x xs)]
    rw [List.flatten_cons, chunksOf_flatten M hM ((x :: xs).drop M)]
    exact List.take_append_drop M (x :: xs)
termination_by l.length
decreasing_by
  simp only [List.length_drop, List.length_cons]
  omega

/-- The number of groups produced by `chunksOf` is `⌈length / M⌉`. -/
theorem length_chunksOf {α : Type u} (M : Nat) (hM : M ≠ 0) (l : List α) :
    (chunksOf M l).length = (l.length + M - 1) / M := by
  cases hl : l with
  | nil =>
    rw [chunksOf_nil]
    simp only [List.length_nil]
    rw [Nat.div_eq_of_lt (by omega)]
  | cons x xs =>
    rw [chunksOf_cons M hM _ (List.cons_ne_nil x xs)]
    by_cases hle : (x :: xs).length ≤ M
    · have hdrop : (x :: xs).drop M = [] := List.drop_eq_nil_of_le hle
      rw [hdrop, chunksOf_nil]
      have hpos : 0 < (x :: xs).length := by simp
      show 1 = ((x :: xs).length + M - 1) / M
      symm
      apply Nat.div_eq_of_lt_le <;> omega
    · have hrec := length_chunksOf M hM ((x :: xs).drop M)
      rw [List.length_cons, hrec, List.length_drop]
      have hgt : M < (x :: xs).length := Nat.lt_of_not_le hle
      have e1 : (x :: xs).length - M + M - 1 = (x :: xs).length - 1 := by omega
      have e2 : (x :: xs).length + M - 1 = ((x :: xs).length - 1) + M := by omega
      rw [e1, e2, Nat.add_div_right _ (Nat.pos_of_ne_zero hM)]
termination_by l.length
decreasing_by
  simp only [List.length_drop, List.length_cons]
  omega

/-- Every group produced by `chunksOf` is non-empty and holds at most `M`
elements. -/
theorem mem_chunksOf {α : Type u} (M : Nat) (hM : M ≠ 0) (l : List α)
    (g : List α) (hg : g ∈ chunksOf M l) : g ≠ [] ∧ g.length ≤ M := by
  have H : ∀ (n : Nat) (l g : List α), l.length ≤ n → g ∈ chunksOf M l →
      g ≠ [] ∧ g.length ≤ M := by
    intro n
    induction n with
    | zero =>
      intro l g hlen hg
      have : l = [] := List.eq_nil_of_length_eq_zero (Nat.le_zero.mp hlen)
      subst this
      rw [chunksOf_nil] at hg
      simp at hg
    | succ n ih =>
      intro l g hlen hg
      cases l with
      | nil =>
        rw [chunksOf_nil] at hg
        simp at hg
      | cons x xs =>
        rw [chunksOf_cons M hM _ (List.cons_ne_nil x xs)] at hg
        rcases List.mem_cons.mp hg with h | h
        · subst h
          constructor
          · cases M with
            | zero => exact absurd rfl hM
            | succ m => simp [List.take_succ_cons]
          · rw [List.length_take]
            exact Nat.min_le_left _ _
        · refine ih ((x :: xs).drop M) g ?_ h
          simp only [List.length_drop, List.length_cons]
          simp only [List.length_cons] at hlen
          omega
  exact H l.length l g (Nat.le_refl _) hg

/-- Every group except possibly the last holds exactly `M` elements. -/
theorem dropLast_chunksOf {α : Type u} (M : Nat) (hM : M ≠ 0) (l : List α)
    (g : List α) (hg : g ∈ (chunksOf M l).dropLast) : g.length = M := by
  have H : ∀ (n : Nat) (l g : List α), l.length ≤ n →
      g ∈ (chunksOf M l).dropLast → g.length = M := by
    intro n
    induction n with
    | zero =>
      intro l g hlen hg
      have : l = [] := List.eq_nil_of_length_eq_zero (Nat.le_zero.mp hlen)
      subst this
      rw [chunksOf_nil] at hg
      simp at hg
    | succ n ih =>
      intro l g hlen hg
      cases l with
      | nil =>
        rw [chunksOf_nil] at hg
        simp at hg
      | cons x xs =>
        rw [chunksOf_cons M hM _ (List.cons_ne_nil x xs)] at hg
        by_cases hrest : chunksOf M ((x :: xs).drop M) = []
        · rw [hrest] at hg
          simp at hg
        · rw [List.dropLast_cons_of_ne_nil hrest] at hg
          rcases List.mem_cons.mp hg with h | h
          · subst h
            have hdrop : (x :: xs).drop M ≠ [] :=
              fun hd => hrest (by rw [hd]; exact chunksOf_nil M)
            have hlt : M < (x :: xs).length := by
              by_contra hle
              exact hdrop (List.drop_eq_nil_of_le (Nat.le_of_not_lt hle))
            rw [List.length_take]
            omega
          · refine ih ((x :: xs).drop M) g ?_ h
            simp only [List.length_drop, List.length_cons]
            simp only [List.length_cons] at hlen
            omega
  exact H l.length l g (Nat.le_refl _) hg

/-! ## Lemmas about `pyJoin` -/

theorem pyJoin_cons_cons (sep w v : String) (ws : List String) :
    pyJoin sep (w :: v :: ws) = w ++ sep ++ pyJoin sep (v :: ws) := rfl

/-- Joining a concatenation of two non-empty lists joins each part and
puts one separator in between. -/
theorem pyJoin_append (sep : String) (l₁ l₂ : List String)
    (h₁ : l₁ ≠ []) (h₂ : l₂ ≠ []) :
    pyJoin sep (l₁ ++ l₂) = pyJoin sep l₁ ++ sep ++ pyJoin sep l₂ := by
  induction l₁ with
  | nil => exact absurd rfl h₁
  | cons a t ih =>
    cases t with
    | nil =>
      cases l₂ with
      | nil => exact absurd rfl h₂
      | cons b u => rfl
    | cons a2 t2 =>
      calc pyJoin sep ((a :: a2 :: t2) ++ l₂)
          = a ++ sep ++ pyJoin sep ((a2 :: t2) ++ l₂) := rfl
        _ = a ++ sep ++ (pyJoin sep (a2 :: t2) ++ sep ++ pyJoin sep l₂) := by
              rw [ih (List.cons_ne_nil a2 t2)]
        _ = pyJoin sep (a :: a2 :: t2) ++ sep ++ pyJoin sep l₂ := by
              simp only [pyJoin_cons_cons, String.append_assoc]

/-- Joining the groups of `chunksOf` (each group already joined) gives the
same string as joining the original list directly: the single-space
rejoin of the chunks is the single-space rejoin of all the words. -/
theorem pyJoin_chunksOf (sep : String) (M : Nat) (hM : M ≠ 0) (l : List String) :
    pyJoin sep ((chunksOf M l).map (pyJoin sep)) = pyJoin sep l := by
  have H : ∀ (n : Nat) (l : List String), l.length ≤ n →
      pyJoin sep ((chunksOf M l).map (pyJoin sep)) = pyJoin sep l := by
    intro n
    induction n with
    | zero =>
      intro l hlen
      have : l = [] := List.eq_nil_of_length_eq_zero (Nat.le_zero.mp hlen)
      subst this
      rw [chunksOf_nil]
      rfl
    | succ n ih =>
      intro l hlen
      cases l with
      | nil =>
        rw [chunksOf_nil]
        rfl
      | cons x xs =>
        rw [chunksOf_cons M hM _ (List.cons_ne_nil x xs)]
        have hbound : ((x :: xs).drop M).length ≤ n := by
          simp only [List.length_drop, List.length_cons]
          simp only [List.length_cons] at hlen
          omega
        by_cases hdrop : (x :: xs).drop M = []
        · rw [hdrop, chunksOf_nil]
          have htake : (x :: xs).take M = x :: xs := by
            have := List.take_append_drop M (x :: xs)
            rw [hdrop, List.append_nil] at this
            exact this
          rw [htake]
          rfl
        · have hne : chunksOf M ((x :: xs).drop M) ≠ [] :=
            fun h => hdrop ((chunksOf_eq_nil_iff M hM _).mp h)
          have hmapne : (chunksOf M ((x :: xs).drop M)).map (pyJoin sep) ≠ [] := by
            intro h
            exact hne (List.map_eq_nil_iff.mp h)
          have htakene : (x :: xs).take M ≠ [] := by
            cases M with
            | zero => exact absurd rfl hM
            | succ m => simp [List.take_succ_cons]
          rw [List.map_cons]
          have hconsapp :
              (pyJoin sep ((x :: xs).take M)) :: (chunksOf M ((x :: xs).drop M)).map (pyJoin sep)
              = [pyJoin sep ((x :: xs).take M)] ++ (chunksOf M ((x :: xs).drop M)).map (pyJoin sep) := rfl
          rw [hconsapp,
              pyJoin_append sep _ _ (List.cons_ne_nil _ _) hmapne]
          have hsingle : pyJoin sep [pyJoin sep ((x :: xs).take M)]
              = pyJoin sep ((x :: xs).take M) := rfl
          rw [hsingle, ih ((x :: xs).drop M) hbound,
              ← pyJoin_append sep _ _ htakene hdrop,
              List.take_append_drop M (x :: xs)]
  exact H l.length l (Nat.le_refl _)

/-! ## Lemmas about `runChunks` -/

theorem runChunks_append (cap : Capability) (l₁ l₂ : List String) :
    runChunks cap (l₁ ++ l₂) = runChunks cap l₁ ++ runChunks cap l₂ := by
  induction l₁ with
  | nil => rfl
  | cons c cs ih =>
    simp only [List.cons_append, runChunks, List.append_eq, ih, List.append_assoc]

/-- On a list of chunks on each of which the capability returns a
non-empty list, the loop appends exactly the first `summary_text` of each
result, in order. -/
theorem runChunks_of_success (cap : Capability) (l : List String)
    (h : ∀ c ∈ l, ∃ s rest, cap c genParams = CapResult.returnsList (s :: rest)) :
    runChunks cap l = l.map (capSegment cap) := by
  induction l with
  | nil => rfl
  | cons c cs ih =>
    obtain ⟨s, rest, hc⟩ := h c (List.mem_cons_self c cs)
    have hcs := ih (fun x hx => h x (List.mem_cons_of_mem c hx))
    simp only [runChunks, List.map_cons, hcs, processChunk, capSegment, hc]
    rfl

/-- Each chunk contributes at most one segment to `summaries`. -/
theorem runChunks_length_le (cap : Capability) (l : List String) :
    (runChunks cap l).length ≤ l.length := by
  induction l with
  | nil => exact Nat.le_refl 0
  | cons c cs ih =>
    simp only [runChunks, List.length_append, List.length_cons]
    have hone : (processChunk cap c).length ≤ 1 := by
      unfold processChunk
      cases cap c genParams with
      | raises e => exact Nat.le_refl 1
      | returnsList items => cases items <;> simp
      | returnsNonList => simp
    omega

/-! ## Lemmas about `pyWords` and `pyStrip` -/

theorem splitWordsAux_nil (acc : List Char) :
    splitWordsAux [] acc = if acc = [] then [] else [acc.reverse] := rfl

theorem splitWordsAux_not_space (c : Char) (cs acc : List Char)
    (hc : pyIsSpace c = false) :
    splitWordsAux (c :: cs) acc = splitWordsAux cs (c :: acc) := by
  simp [splitWordsAux, hc]

theorem splitWordsAux_space (c : Char) (cs acc : List Char)
    (hc : pyIsSpace c = true) (hacc : acc ≠ []) :
    splitWordsAux (c :: cs) acc = acc.reverse :: splitWordsAux cs [] := by
  simp [splitWordsAux, hc, hacc]

/-- Scanning a whitespace-free block accumulates it (reversed) onto the
accumulator. -/
theorem splitWordsAux_word (w : List Char) (hw : ∀ c ∈ w, pyIsSpace c = false) :
    ∀ (cs acc : List Char),
      splitWordsAux (w ++ cs) acc = splitWordsAux cs (w.reverse ++ acc) := by
  induction w with
  | nil => intro cs acc; simp
  | cons c w2 ih =>
    intro cs acc
    have hc : pyIsSpace c = false := hw c (List.mem_cons_self c w2)
    rw [List.cons_append, splitWordsAux_not_space c _ _ hc,
        ih (fun x hx => hw x (List.mem_cons_of_mem c hx)) cs (c :: acc)]
    congr 1
    simp

theorem splitWordsAux_ne_nil (cs : List Char) :
    ∀ acc, acc ≠ [] → splitWordsAux cs acc ≠ [] := by
  induction cs with
  | nil => intro acc h; simp [splitWordsAux_nil, h]
  | cons c cs ih =>
    intro acc h
    cases hc : pyIsSpace c with
    | true =>
      rw [splitWordsAux_space c cs acc hc h]
      exact List.cons_ne_nil _ _
    | false =>
      rw [splitWordsAux_not_space c cs acc hc]
      exact ih (c :: acc) (List.cons_ne_nil c acc)

/-- `str.split()` yields no words exactly when every character is
whitespace. -/
theorem splitWords_eq_nil_iff (cs : List Char) :
    splitWordsAux cs [] = [] ↔ ∀ c ∈ cs, pyIsSpace c = true := by
  induction cs with
  | nil => simp [splitWordsAux_nil]
  | cons c cs ih =>
    cases hc : pyIsSpace c with
    | true =>
      have h1 : splitWordsAux (c :: cs) [] = splitWordsAux cs [] := by
        simp [splitWordsAux, hc]
      rw [h1, ih]
      simp [hc]
    | false =>
      rw [splitWordsAux_not_space c cs [] hc]
      constructor
      · intro h
        exact absurd h (splitWordsAux_ne_nil cs [c] (List.cons_ne_nil c []))
      · intro h
        exact absurd (h c (List.mem_cons_self c cs)) (by simp [hc])

theorem pyWords_eq_nil_iff (s : String) :
    pyWords s = [] ↔ ∀ c ∈ s.data, pyIsSpace c = true := by
  unfold pyWords
  rw [List.map_eq_nil_iff, splitWords_eq_nil_iff]

theorem asString_data (s : String) : s.data.asString = s := rfl

theorem mk_eq_empty_iff (l : List Char) : String.mk l = "" ↔ l = [] := by
  constructor
  · intro h
    have := congrArg String.data h
    simpa using this
  · intro h
    subst h
    rfl

/-- `text.strip()` is empty exactly when every character is whitespace. -/
theorem pyStrip_eq_empty_iff (s : String) :
    pyStrip s = "" ↔ ∀ c ∈ s.data, pyIsSpace c = true := by
  unfold pyStrip
  rw [mk_eq_empty_iff, List.reverse_eq_nil_iff]
  constructor
  · intro h c hc
    have h3 : ∀ x ∈ s.data.dropWhile pyIsSpace, pyIsSpace x = true := by
      intro x hx
      exact List.dropWhile_eq_nil_iff.mp h x (List.mem_reverse.mpr hx)
    have hsplit := List.takeWhile_append_dropWhile pyIsSpace s.data
    have hc2 : c ∈ s.data.takeWhile pyIsSpace ++ s.data.dropWhile pyIsSpace := by
      rw [hsplit]
      exact hc
    rcases List.mem_append.mp hc2 with h4 | h4
    · exact List.mem_takeWhile_imp h4
    · exact h3 c h4
  · intro h
    have h1 : s.data.dropWhile pyIsSpace = [] := List.dropWhile_eq_nil_iff.mpr h
    rw [h1]
    rfl

/-- The blankness test `not text.strip()` of `summarize_text` agrees with
`text.split()` yielding no words. -/
theorem pyStrip_empty_iff_pyWords_nil (s : String) :
    pyStrip s = "" ↔ pyWords s = [] := by
  rw [pyStrip_eq_empty_iff, pyWords_eq_nil_iff]

/-- Splitting a single-space join of non-empty whitespace-free words
recovers exactly those words (tokenize is a left inverse of rejoin). -/
theorem pyWords_pyJoin (l : List String)
    (h : ∀ w ∈ l, w.data ≠ [] ∧ ∀ c ∈ w.data, pyIsSpace c = false) :
    pyWords (pyJoin " " l) = l := by
  induction l with
  | nil => rfl
  | cons w t ih =>
    obtain ⟨hwne, hwns⟩ := h w (List.mem_cons_self w t)
    cases t with
    | nil =>
      unfold pyWords
      have e1 : (pyJoin " " [w]).data = w.data ++ [] := by
        simp [pyJoin]
      rw [e1, splitWordsAux_word w.data hwns [] [],
          splitWordsAux_nil]
      have hrevne : w.data.reverse ++ [] ≠ [] := by
        simp [hwne]
      rw [if_neg hrevne]
      simp [asString_data]
    | cons v u =>
      have e1 : (pyJoin " " (w :: v :: u)).data
          = w.data ++ (' ' :: (pyJoin " " (v :: u)).data) := by
        rw [pyJoin_cons_cons, String.data_append, String.data_append]
        simp
      unfold pyWords
      rw [e1, splitWordsAux_word w.data hwns _ [],
          splitWordsAux_space ' ' _ _ rfl (by simp [hwne])]
      have ih2 := ih (fun x hx => h x (List.mem_cons_of_mem w hx))
      unfold pyWords at ih2
      simp only [List.map_cons, List.append_nil, List.reverse_reverse, ih2]
      simp [asString_data]

/-! ## Claim theorems -/

/-- C1: for every input text and every positive `max_words`, the word
groups of the chunks returned by `chunk_text`, concatenated in order,
are exactly the word list of the input (no word lost, duplicated or
reordered), and joining the chunks with single-space separators
reproduces the input text with all whitespace runs normalized to single
spaces (the single-space join of its word list). -/
theorem chunk_text_words_preserved (text : String) (M : Nat) (hM : 0 < M) :
    (chunksOf M (pyWords text)).flatten = pyWords text
    ∧ pyJoin " " (chunk_textCore text M) = pyJoin " " (pyWords text) := by
  have hne : M ≠ 0 := Nat.pos_iff_ne_zero.mp hM
  constructor
  · exact chunksOf_flatten M hne (pyWords text)
  · unfold chunk_textCore
    exact pyJoin_chunksOf " " M hne (pyWords text)

theorem chunk_text_words_preserved_witness :
    pyJoin " " (chunk_textCore "a  b\tc  " 2) = pyJoin " " (pyWords "a  b\tc  ")
    ∧ pyJoin " " (pyWords "a  b\tc  ") = "a b c" :=
  ⟨(chunk_text_words_preserved "a  b\tc  " 2 (by decide)).2, by decide⟩

/-- C2: for every input text with `W` words and positive `max_words = M`,
`chunk_text` returns exactly `⌈W / M⌉` chunks; every chunk except
possibly the last has exactly `M` words, every chunk has between 1 and
`M` words, and a text with no words (empty or whitespace-only) yields
zero chunks. -/
theorem chunk_text_chunk_sizes (text : String) (M : Nat) (hM : 0 < M) :
    (chunk_textCore text M).length = ((pyWords text).length + M - 1) / M
    ∧ (∀ g ∈ (chunksOf M (pyWords text)).dropLast, g.length = M)
    ∧ (∀ g ∈ chunksOf M (pyWords text), 1 ≤ g.length ∧ g.length ≤ M)
    ∧ (pyWords text = [] → chunk_textCore text M = []) := by
  have hne : M ≠ 0 := Nat.pos_iff_ne_zero.mp hM
  refine ⟨?_, ?_, ?_, ?_⟩
  · unfold chunk_textCore
    rw [List.length_map]
    exact length_chunksOf M hne (pyWords text)
  · exact fun g hg => dropLast_chunksOf M hne _ g hg
  · intro g hg
    obtain ⟨h1, h2⟩ := mem_chunksOf M hne _ g hg
    exact ⟨List.length_pos.mpr h1, h2⟩
  · intro h
    unfold chunk_textCore
    rw [h, chunksOf_nil]
    rfl

theorem chunk_text_chunk_sizes_witness :
    (chunk_textCore "a b c d e" 2).length = ((pyWords "a b c d e").length + 2 - 1) / 2
    ∧ chunk_textCore "a b c d e" 2 = ["a b", "c d", "e"] :=
  ⟨(chunk_text_chunk_sizes "a b c d e" 2 (by decide)).1, by decide⟩

/-- C4: for every blank text (empty or whitespace-only, i.e.
`text.strip()` empty), `summarize_text` returns the fixed sentinel
`"No content to summarize."` and makes no call to the external
capability. -/
theorem summarize_text_blank (cap : Capability) (text : String)
    (h : pyStrip text = "") :
    summarize_text cap text = "No content to summarize."
    ∧ (summarize_trace cap text).2 = [] := by
  have ht : summarize_trace cap text = ("No content to summarize.", []) := by
    unfold summarize_trace
    rw [if_pos h]
  exact ⟨congrArg Prod.fst ht, congrArg Prod.snd ht⟩

theorem summarize_text_blank_witness :
    summarize_text (fun _ _ => CapResult.returnsList ["S"]) ""
      = "No content to summarize."
    ∧ summarize_text (fun _ _ => CapResult.returnsList ["S"]) "   "
      = "No content to summarize."
    ∧ (summarize_trace (fun _ _ => CapResult.returnsList ["S"]) "   ").2 = [] :=
  ⟨(summarize_text_blank (fun _ _ => CapResult.returnsList ["S"]) "" (by decide)).1,
   (summarize_text_blank (fun _ _ => CapResult.returnsList ["S"]) "   " (by decide)).1,
   (summarize_text_blank (fun _ _ => CapResult.returnsList ["S"]) "   " (by decide)).2⟩

/-- C5: for every non-blank text of at most 500 words, `summarize_text`
treats the whole text as the single chunk and calls the external
capability exactly once, on the text itself, so the result is the
processing of that single call. -/
theorem summarize_text_small_single_chunk (cap : Capability) (text : String)
    (hne : pyStrip text ≠ "") (hW : (pyWords text).length ≤ 500) :
    sumChunks text = [text]
    ∧ (summarize_trace cap text).2 = [(text, genParams)]
    ∧ summarize_text cap text = pyJoin " " (processChunk cap text) := by
  have hch : sumChunks text = [text] := by
    unfold sumChunks
    rw [if_neg (by omega)]
  refine ⟨hch, ?_, ?_⟩
  · unfold summarize_trace
    rw [if_neg hne]
    show (sumChunks text).map (fun c => (c, genParams)) = _
    rw [hch]
    rfl
  · unfold summarize_text summarize_trace
    rw [if_neg hne]
    show pyJoin " " (runChunks cap (sumChunks text)) = _
    rw [hch]
    show pyJoin " " (processChunk cap text ++ runChunks cap []) = _
    rw [show runChunks cap [] = [] from rfl, List.append_nil]

theorem summarize_text_small_single_chunk_witness :
    sumChunks "hello world" = ["hello world"]
    ∧ (summarize_trace (fun _ _ => CapResult.returnsList ["S"]) "hello world").2
      = [("hello world", genParams)]
    ∧ summarize_text (fun _ _ => CapResult.returnsList ["S"]) "hello world" = "S" := by
  have h := summarize_text_small_single_chunk
    (fun _ _ => CapResult.returnsList ["S"]) "hello world" (by decide) (by decide)
  exact ⟨h.1, h.2.1, by decide⟩

/-- C7: with the external capability modelled as a fixed deterministic
function of the chunk and the generation parameters, `summarize_text` is
deterministic — two invocations with the same capability and equal texts
return the same string — and every capability call it makes uses the
fixed parameters `max_length = 150`, `min_length = 40`,
`do_sample = False`. -/
theorem summarize_text_deterministic (cap : Capability) (t1 t2 : String)
    (h : t1 = t2) :
    summarize_text cap t1 = summarize_text cap t2
    ∧ ∀ p ∈ (summarize_trace cap t1).2,
        p.2 = genParams ∧ p.2.do_sample = false := by
  subst h
  refine ⟨rfl, ?_⟩
  intro p hp
  unfold summarize_trace at hp
  by_cases hb : pyStrip t1 = ""
  · rw [if_pos hb] at hp
    simp at hp
  · rw [if_neg hb] at hp
    have hp2 : p ∈ (sumChunks t1).map (fun c => (c, genParams)) := hp
    obtain ⟨c, _, rfl⟩ := List.mem_map.mp hp2
    exact ⟨rfl, rfl⟩

theorem summarize_text_deterministic_witness :
    summarize_text (fun _ _ => CapResult.returnsNonList) "x"
      = summarize_text (fun _ _ => CapResult.returnsNonList) "x"
    ∧ summarize_text (fun _ _ => CapResult.returnsNonList) "x" = "" :=
  ⟨(summarize_text_deterministic (fun _ _ => CapResult.returnsNonList) "x" "x" rfl).1,
   by decide⟩

/-- C9: for every input text, `chunk_text` with `max_words = 0` raises
(Python's `range` rejects a zero step), while `chunk_text` with any
negative `max_words` returns the empty chunk list without raising,
silently discarding every word of the input. -/
theorem chunk_text_zero_and_negative (text : String) (m : Int) (hm : m < 0) :
    chunk_text text 0 = Except.error "range() arg 3 must not be zero"
    ∧ chunk_text text m = Except.ok [] := by
  constructor
  · rfl
  · unfold chunk_text
    rw [if_neg (by omega), if_pos hm]

theorem chunk_text_zero_and_negative_witness :
    chunk_text "a b c" 0 = Except.error "range() arg 3 must not be zero"
    ∧ chunk_text "a b c" (-5) = Except.ok [] :=
  ⟨(chunk_text_zero_and_negative "a b c" (-5) (by decide)).1,
   (chunk_text_zero_and_negative "a b c" (-5) (by decide)).2⟩

/-- C10: for every non-blank text of at most 500 words, the exact
original string (internal, leading and trailing whitespace included) is
passed verbatim as the single chunk to the external capability; for a
text of more than 500 words every chunk reaching the capability is a
single-space join of a group of its words (whitespace collapsed). -/
theorem summarize_text_whitespace_passthrough (cap : Capability) (text : String)
    (hne : pyStrip text ≠ "") :
    ((pyWords text).length ≤ 500 →
      (summarize_trace cap text).2 = [(text, genParams)])
    ∧ (500 < (pyWords text).length →
      (summarize_trace cap text).2.map Prod.fst
        = (chunksOf 500 (pyWords text)).map (pyJoin " ")) := by
  constructor
  · intro hle
    exact (summarize_text_small_single_chunk cap text hne hle).2.1
  · intro hgt
    have hch : sumChunks text = chunk_textCore text 500 := by
      unfold sumChunks
      rw [if_pos hgt]
    have ht : (summarize_trace cap text).2
        = (sumChunks text).map (fun c => (c, genParams)) := by
      unfold summarize_trace
      rw [if_neg hne]
    rw [ht, hch]
    unfold chunk_textCore
    simp [List.map_map]

theorem summarize_text_whitespace_passthrough_witness :
    (summarize_trace (fun _ _ => CapResult.returnsList ["S"]) " a\tb ").2
      = [(" a\tb ", genParams)] :=
  (summarize_text_whitespace_passthrough
    (fun _ _ => CapResult.returnsList ["S"]) " a\tb " (by decide)).1 (by decide)

/-- C3: if the external capability raises on exactly one chunk and
succeeds (returns a non-empty list) on every other chunk, `summarize_text`
does not abort: the `summaries` list has one segment per chunk in the
original order, the failed chunk's segment is the error sentinel
embedding the exception detail, the other segments are the capability's
real summary outputs, and the result is their space join. -/
theorem summarize_text_failure_isolated (cap : Capability) (text : String)
    (pre post : List String) (c e : String)
    (hne : pyStrip text ≠ "")
    (hsplit : sumChunks text = pre ++ c :: post)
    (hfail : cap c genParams = CapResult.raises e)
    (hok : ∀ x ∈ pre ++ post,
      ∃ s rest, cap x genParams = CapResult.returnsList (s :: rest)) :
    runChunks cap (sumChunks text)
      = pre.map (capSegment cap)
        ++ ("Error during summarization: " ++ e) :: post.map (capSegment cap)
    ∧ (runChunks cap (sumChunks text)).length = (sumChunks text).length
    ∧ summarize_text cap text
      = pyJoin " " (pre.map (capSegment cap)
          ++ ("Error during summarization: " ++ e) :: post.map (capSegment cap)) := by
  have hpre : ∀ x ∈ pre, ∃ s rest, cap x genParams = CapResult.returnsList (s :: rest) :=
    fun x hx => hok x (List.mem_append_left post hx)
  have hpost : ∀ x ∈ post, ∃ s rest, cap x genParams = CapResult.returnsList (s :: rest) :=
    fun x hx => hok x (List.mem_append_right pre hx)
  have hpc : processChunk cap c = ["Error during summarization: " ++ e] := by
    unfold processChunk
    rw [hfail]
  have hrun : runChunks cap (sumChunks text)
      = pre.map (capSegment cap)
        ++ ("Error during summarization: " ++ e) :: post.map (capSegment cap) := by
    rw [hsplit, runChunks_append, runChunks_of_success cap pre hpre]
    rw [show runChunks cap (c :: post) = processChunk cap c ++ runChunks cap post from rfl]
    rw [runChunks_of_success cap post hpost, hpc]
    rfl
  refine ⟨hrun, ?_, ?_⟩
  · rw [hrun, hsplit]
    simp [List.length_append, List.length_map]
  · unfold summarize_text summarize_trace
    rw [if_neg hne]
    show pyJoin " " (runChunks cap (sumChunks text)) = _
    rw [hrun]

theorem summarize_text_failure_isolated_witness :
    summarize_text (fun _ _ => CapResult.raises "boom") "hello"
      = "Error during summarization: boom"
    ∧ (runChunks (fun _ _ => CapResult.raises "boom") (sumChunks "hello")).length
      = (sumChunks "hello").length := by
  have h := summarize_text_failure_isolated (fun _ _ => CapResult.raises "boom")
    "hello" [] [] "hello" "boom" (by decide) (by decide) rfl
    (fun x hx => absurd hx (by simp))
  refine ⟨?_, h.2.1⟩
  rw [h.2.2]
  rfl

/-- C8: if the capability returns, without raising, a value that is not a
non-empty list (an empty list or a non-list value such as `None`) for
some chunk, `summarize_text` appends neither a summary nor an error
sentinel for that chunk: the chunk is silently dropped and the final
`summaries` list has fewer segments than there are chunks. -/
theorem summarize_text_silent_drop (cap : Capability) (text : String)
    (pre post : List String) (c : String)
    (hne : pyStrip text ≠ "")
    (hsplit : sumChunks text = pre ++ c :: post)
    (hdrop : cap c genParams = CapResult.returnsList []
      ∨ cap c genParams = CapResult.returnsNonList) :
    processChunk cap c = []
    ∧ runChunks cap (sumChunks text) = runChunks cap pre ++ runChunks cap post
    ∧ (runChunks cap (sumChunks text)).length < (sumChunks text).length
    ∧ summarize_text cap text = pyJoin " " (runChunks cap pre ++ runChunks cap post) := by
  have hpc : processChunk cap c = [] := by
    unfold processChunk
    rcases hdrop with h | h <;> rw [h]
  have hrun : runChunks cap (sumChunks text)
      = runChunks cap pre ++ runChunks cap post := by
    rw [hsplit, runChunks_append]
    rw [show runChunks cap (c :: post) = processChunk cap c ++ runChunks cap post from rfl]
    rw [hpc, List.nil_append]
  refine ⟨hpc, hrun, ?_, ?_⟩
  · rw [hrun, hsplit]
    have h1 := runChunks_length_le cap pre
    have h2 := runChunks_length_le cap post
    simp only [List.length_append, List.length_cons]
    omega
  · unfold summarize_text summarize_trace
    rw [if_neg hne]
    show pyJoin " " (runChunks cap (sumChunks text)) = _
    rw [hrun]

theorem summarize_text_silent_drop_witness :
    processChunk (fun _ _ => CapResult.returnsNonList) "hello" = []
    ∧ summarize_text (fun _ _ => CapResult.returnsNonList) "hello" = "" := by
  have h := summarize_text_silent_drop (fun _ _ => CapResult.returnsNonList)
    "hello" [] [] "hello" (by decide) (by decide) (Or.inr rfl)
  refine ⟨h.1, ?_⟩
  rw [h.2.2.2]
  rfl

/-- C6: every text of exactly 1200 words is split by `summarize_text`
into 3 chunks of 500, 500 and 200 words, and if the capability returns
summaries `A`, `B`, `C` on those chunks in order, the result is
`A ++ " " ++ B ++ " " ++ C` (that is, `"A B C"`). -/
theorem summarize_text_1200_words (cap : Capability) (text : String)
    (A B C : String) (r1 r2 r3 : List String)
    (hW : (pyWords text).length = 1200)
    (h1 : cap (pyJoin " " ((pyWords text).take 500)) genParams
      = CapResult.returnsList (A :: r1))
    (h2 : cap (pyJoin " " (((pyWords text).drop 500).take 500)) genParams
      = CapResult.returnsList (B :: r2))
    (h3 : cap (pyJoin " " (((pyWords text).drop 500).drop 500)) genParams
      = CapResult.returnsList (C :: r3)) :
    (sumChunks text).length = 3
    ∧ (chunksOf 500 (pyWords text)).map List.length = [500, 500, 200]
    ∧ summarize_text cap text = A ++ " " ++ B ++ " " ++ C := by
  have hMne : (500 : Nat) ≠ 0 := by omega
  have hw1 : pyWords text ≠ [] := by
    intro h
    rw [h] at hW
    simp at hW
  have hd1 : ((pyWords text).drop 500).length = 700 := by
    rw [List.length_drop, hW]
  have hd2 : (((pyWords text).drop 500).drop 500).length = 200 := by
    rw [List.length_drop, hd1]
  have hw2 : (pyWords text).drop 500 ≠ [] := by
    intro h
    rw [h] at hd1
    simp at hd1
  have hw3 : ((pyWords text).drop 500).drop 500 ≠ [] := by
    intro h
    rw [h] at hd2
    simp at hd2
  have hw4 : (((pyWords text).drop 500).drop 500).drop 500 = [] :=
    List.drop_eq_nil_of_le (by rw [hd2]; omega)
  have htake3 : (((pyWords text).drop 500).drop 500).take 500
      = ((pyWords text).drop 500).drop 500 := by
    have h := List.take_append_drop 500 (((pyWords text).drop 500).drop 500)
    rw [hw4, List.append_nil] at h
    exact h
  have hchunks : chunksOf 500 (pyWords text)
      = [(pyWords text).take 500, ((pyWords text).drop 500).take 500,
         ((pyWords text).drop 500).drop 500] := by
    rw [chunksOf_cons 500 hMne _ hw1, chunksOf_cons 500 hMne _ hw2,
        chunksOf_cons 500 hMne _ hw3, hw4, chunksOf_nil, htake3]
  have hsizes : (chunksOf 500 (pyWords text)).map List.length = [500, 500, 200] := by
    rw [hchunks]
    simp only [List.map_cons, List.map_nil, List.length_take, hW, hd1, hd2]
    decide
  have hsum : sumChunks text
      = [pyJoin " " ((pyWords text).take 500),
         pyJoin " " (((pyWords text).drop 500).take 500),
         pyJoin " " (((pyWords text).drop 500).drop 500)] := by
    unfold sumChunks
    rw [if_pos (by omega)]
    unfold chunk_textCore
    rw [hchunks]
    rfl
  have hne : pyStrip text ≠ "" := by
    intro hb
    rw [pyStrip_empty_iff_pyWords_nil] at hb
    exact hw1 hb
  refine ⟨by rw [hsum]; rfl, hsizes, ?_⟩
  unfold summarize_text summarize_trace
  rw [if_neg hne]
  show pyJoin " " (runChunks cap (sumChunks text)) = _
  rw [hsum]
  have hr : runChunks cap
      [pyJoin " " ((pyWords text).take 500),
       pyJoin " " (((pyWords text).drop 500).take 500),
       pyJoin " " (((pyWords text).drop 500).drop 500)] = [A, B, C] := by
    simp only [runChunks, processChunk, h1, h2, h3]
    rfl
  rw [hr]
  show A ++ " " ++ (B ++ " " ++ C) = A ++ " " ++ B ++ " " ++ C
  simp [String.append_assoc]

theorem summarize_text_1200_words_witness :
    (sumChunks (pyJoin " " (List.replicate 1200 "a"))).length = 3
    ∧ summarize_text (fun _ _ => CapResult.returnsList ["A"])
        (pyJoin " " (List.replicate 1200 "a"))
      = "A" ++ " " ++ "A" ++ " " ++ "A"
    ∧ ("A" ++ " " ++ "A" ++ " " ++ "A" : String) = "A A A" := by
  have hwords : pyWords (pyJoin " " (List.replicate 1200 "a"))
      = List.replicate 1200 "a" := by
    apply pyWords_pyJoin
    intro w hw
    rw [List.eq_of_mem_replicate hw]
    exact ⟨by decide, by decide⟩
  have h := summarize_text_1200_words (fun _ _ => CapResult.returnsList ["A"])
    (pyJoin " " (List.replicate 1200 "a")) "A" "A" "A" [] [] []
    (by rw [hwords, List.length_replicate]) rfl rfl rfl
  exact ⟨h.1, h.2.2, by decide⟩
